import Mathlib

/-!
Shallow embedding of the `sched2` library (src/sched2.py) together with the
parts of the Python standard library `sched.scheduler` class that `sched2`
inherits (`enter`, `enterabs`, `run`), for verifying the specification's
claims.

Conventions of the embedding:
* Python ints are `Int` (or `Nat` where the source values are provably
  non-negative digit strings); Python sets of ints are `Finset`.
* The global random generator `random.randint` is modelled by an oracle
  `g : Nat → Nat → Nat → Nat` threaded with a call counter: the k-th call
  `randint(a, b)` returns `g k a b`; faithful to CPython it fails when
  `a > b`.
* Fallible code returns `Except String`.
-/

namespace Sched2

/-! ### Cron field grammar (src/sched2.py `field_pattern`, lines 195-197)

The regex is
`^(?P<start>\d{1,2})?(?P<operator>[*~-])?(?P<stop>\d{1,2})?(?:/(?P<step>\d{1,2}))?$`.
Because the components appear in a fixed order and no later component can
consume a character that an earlier greedy component took (digits are never
valid as an operator or a slash and vice versa), greedy left-to-right
matching without backtracking accepts exactly the same strings with the same
group captures.  `matchPart` implements that deterministic matcher on
`List Char`. -/

def digitVal (c : Char) : Nat := c.toNat - '0'.toNat

/-- Greedily take one or two leading decimal digits (the regex `\d{1,2}?`
as an optional group): returns the numeric value and the rest. -/
def takeDigits12 : List Char → Option Nat × List Char
  | [] => (none, [])
  | c :: rest =>
    if c.isDigit then
      match rest with
      | c2 :: rest2 =>
        if c2.isDigit then (some (digitVal c * 10 + digitVal c2), rest2)
        else (some (digitVal c), rest)
      | [] => (some (digitVal c), [])
    else (none, c :: rest)

/-- The captures of `field_pattern`: (start, operator, stop, step). -/
def matchPart (cs : List Char) :
    Option (Option Nat × Option Char × Option Nat × Option Nat) :=
  let (start, cs1) := takeDigits12 cs
  let (op, cs2) :=
    match cs1 with
    | c :: rest =>
      if c = '*' ∨ c = '~' ∨ c = '-' then ((some c : Option Char), rest)
      else ((none : Option Char), c :: rest)
    | [] => ((none : Option Char), ([] : List Char))
  let (stop, cs3) := takeDigits12 cs2
  match cs3 with
  | [] => some (start, op, stop, none)
  | '/' :: cs4 =>
    match takeDigits12 cs4 with
    | (some n, []) => some (start, op, stop, some n)
    | _ => none
  | _ => none

/-- Split a character list at every occurrence of a separator satisfying `p`,
keeping empty pieces (Python `str.split(",")` behaviour). -/
def splitKeep (p : Char → Bool) : List Char → List (List Char)
  | [] => [[]]
  | c :: rest =>
    if p c then [] :: splitKeep p rest
    else
      match splitKeep p rest with
      | [] => [[c]]
      | piece :: pieces => (c :: piece) :: pieces

/-- Python `range(a, b, st)` for `st ≥ 1`, as a list. -/
def pyRange (a b st : Nat) : List Nat := List.range' a ((b - a + st - 1) / st) st

/-- CPython `random.randint(a, b)` driven by the oracle `g` at call index
`k`; raises (errors) when the range is empty, as CPython does. -/
def randint (g : Nat → Nat → Nat → Nat) (k a b : Nat) : Except String Nat :=
  if a ≤ b then .ok (g k a b) else .error "empty range for randrange"

/-- Truthiness of an optional Python int (`None` and `0` are falsy). -/
def intTruthy : Option Nat → Bool
  | some n => n ≠ 0
  | none => false

/-- One iteration of the `for part in field.split(","):` loop body of
`parse_field` (src/sched2.py lines 205-248).  `k` is the randint call
counter; returns the updated allowed set and counter. -/
def applyPart (g : Nat → Nat → Nat → Nat) (max min : Nat)
    (part : List Char) (k : Nat) (allowed : Finset Nat) :
    Except String (Finset Nat × Nat) := do
  match matchPart part with
  | none => .error "invalid field"
  | some (start0, op, stop0, step0) =>
    -- bounds check
    if ((match start0 with | some v => decide (v < min) | none => false) ||
        (match stop0 with | some v => decide (max < v) | none => false)) then
      .error "invalid field"
    else
      -- `-` and `~` default start to min and stop to max
      let start1 : Option Nat :=
        if op = some '-' ∨ op = some '~' then some (start0.getD min) else start0
      let stop1 : Option Nat :=
        if op = some '-' ∨ op = some '~' then some (stop0.getD max) else stop0
      if op = some '*' then
        let st := if intTruthy step0 then step0.getD 1 else 1
        .ok (allowed ∪ (pyRange min (max + 1) st).toFinset, k)
      else if op = some '-' then
        let st := if intTruthy step0 then step0.getD 1 else 1
        .ok (allowed ∪ (pyRange (start1.getD 0) (stop1.getD 0 + 1) st).toFinset, k)
      else if op = some '~' then
        let start := start1.getD 0
        let stop := stop1.getD 0
        if intTruthy step0 then
          let st := step0.getD 0
          if stop - start < st then do
            let r ← randint g k start stop
            .ok (allowed ∪ (pyRange r (stop + 1) st).toFinset, k + 1)
          else do
            let r ← randint g k start (start + st - 1)
            .ok (allowed ∪ (pyRange r (stop + 1) st).toFinset, k + 1)
        else do
          let r ← randint g k start stop
          .ok (insert r allowed, k + 1)
      else
        -- no operator: a plain single value
        if intTruthy step0 ∨ intTruthy stop0 ∨ start0 = none then
          .error "invalid field"
        else
          .ok (insert (start0.getD 0) allowed, k)

def applyParts (g : Nat → Nat → Nat → Nat) (max min : Nat) :
    List (List Char) → Nat → Finset Nat → Except String (Finset Nat × Nat)
  | [], k, allowed => .ok (allowed, k)
  | part :: parts, k, allowed => do
    let (allowed', k') ← applyPart g max min part k allowed
    applyParts g max min parts k' allowed'

/-- `parse_field` threaded with the randint call counter `k`
(src/sched2.py lines 200-250). -/
def parse_field_k (g : Nat → Nat → Nat → Nat) (field : String)
    (max : Nat) (min : Nat) (k : Nat) : Except String (Finset Nat × Nat) :=
  applyParts g max min (splitKeep (· = ',') field.toList) k ∅

/-- `parse_field(field, max, min=0)` (src/sched2.py lines 200-250). -/
def parse_field (g : Nat → Nat → Nat → Nat) (field : String)
    (max : Nat) (min : Nat := 0) : Except String (Finset Nat) :=
  (parse_field_k g field max min 0).map (·.1)

/-- The parsed calendar rule (the dict built at src/sched2.py lines 271-277).
`day_of_week` is over `Int` because the remap subtracts 1 from cron values
and tests for `-1`. -/
structure Rule where
  minute : Finset Nat
  hour : Finset Nat
  day : Finset Nat
  month : Finset Nat
  day_of_week : Finset Int
  deriving DecidableEq

/-- Python's `str.split()` with no separator: split on whitespace runs,
dropping empty pieces. -/
def pySplitWs (s : String) : List (List Char) :=
  (splitKeep (fun c => c = ' ' ∨ c = '\t' ∨ c = '\n' ∨ c = '\r') s.toList).filter
    (fun piece => piece ≠ [])

/-- `parse_rule(rule)` (src/sched2.py lines 253-277).  The day-of-week field
is parsed first, then the dict-literal fields in source order
(minute, hour, day, month), which fixes the order of randint calls. -/
def parse_rule (g : Nat → Nat → Nat → Nat) (rule : String) :
    Except String Rule := do
  match pySplitWs rule with
  | [minuteF, hourF, dayF, monthF, dowF] =>
    let (dow0, k1) ← parse_field_k g (String.mk dowF) 7 0 0
    -- for cron 0 is sunday, but for datetime 0 is monday
    let dow1 : Finset Int := Finset.image (fun wd : Nat => (wd : Int) - 1) dow0
    let dow2 : Finset Int :=
      if (-1 : Int) ∈ dow1 then insert 6 (dow1.erase (-1)) else dow1
    let (minuteS, k2) ← parse_field_k g (String.mk minuteF) 59 0 k1
    let (hourS, k3) ← parse_field_k g (String.mk hourF) 23 0 k2
    let (dayS, k4) ← parse_field_k g (String.mk dayF) 31 1 k3
    let (monthS, _) ← parse_field_k g (String.mk monthF) 12 1 k4
    .ok ⟨minuteS, hourS, dayS, monthS, dow2⟩
  | _ => .error "rule does not have five fields"

/-- A point in wall-clock time, as the fields of a `datetime.datetime` that
`check_rule` reads (`weekday()` is 0 = Monday .. 6 = Sunday). -/
structure DateTime where
  minute : Nat
  hour : Nat
  day : Nat
  month : Nat
  weekday : Nat
  deriving DecidableEq, Repr

/-- `check_rule(parsed_rule, now)` (src/sched2.py lines 280-289). -/
def check_rule (parsed_rule : Rule) (now : DateTime) : Bool :=
  decide (now.minute ∈ parsed_rule.minute) &&
  decide (now.hour ∈ parsed_rule.hour) &&
  decide (now.day ∈ parsed_rule.day) &&
  decide (now.month ∈ parsed_rule.month) &&
  decide ((now.weekday : Int) ∈ parsed_rule.day_of_week)

/-! ### The scheduler state machine

`sched2.scheduler` subclasses the standard library `sched.scheduler`; the
inherited methods it relies on are (CPython `Lib/sched.py`, 3.10+):

```
def enterabs(self, time, priority, action, argument=(), kwargs=_sentinel):
    event = Event(time, priority, next(self._sequence_generator), action,
                  argument, kwargs)
    heappush(self._queue, event)
    return event
def enter(self, delay, priority, action, argument=(), kwargs=_sentinel):
    time = self.timefunc() + delay
    return self.enterabs(time, priority, action, argument, kwargs)
def run(self, blocking=True):
    while True:
        if not q: break
        time, priority, sequence, action, argument, kwargs = q[0]
        now = timefunc()
        if time > now: delay = True
        else: delay = False; pop(q)
        if delay:
            if not blocking: return time - now
            delayfunc(time - now)
        else:
            action(*argument, **kwargs)
            delayfunc(0)
```

Events compare lexicographically on `(time, priority, sequence)`, and the
per-instance sequence counter makes every key unique, so heap extraction
returns exactly the leftmost minimum of the insertion list.  The embedding
keeps the queue as the list of entries in insertion order and pops the
leftmost minimum.

Actions are a syntactic language `Act` interpreted by `runAct`: `prim f` is
an opaque user callable numbered `f` whose successive return values are
given by an environment `env : Nat → Nat → Bool` (`env f k` is the value
returned by callable `f`'s `k`-th invocation, counted from 0); `enterA` is
an action that calls `self.enter`; `repeaterA` is the `repeater` closure
created by `repeat` (src/sched2.py lines 53-56); `cronA` is the
`cron_runner` closure created by `cron` (lines 122-128); `seqA` sequences
two effects.  `timefunc` reads `State.time`; `delayfunc d` advances
`State.time` by `d` (a blocking sleep); `datetime.now()` reads the separate
wall-clock field `State.wall`, which the scheduler's injected clock does not
control.  `State.log` records each `prim` invocation and `State.fired`
records each entry the run loop pops and invokes (observation traces; no
source behaviour depends on them). -/

inductive Act where
  | prim (f : Nat)
  | enterA (delay priority : Int) (a : Act)
  | repeaterA (delay priority : Int) (a : Act)
  | cronA (rule : Rule) (priority : Int) (a : Act)
  | seqA (a b : Act)
  deriving DecidableEq

/-- One queued event: CPython's `Event(time, priority, sequence, action, …)`
with the bound arguments pre-applied into the action. -/
structure Entry where
  time : Int
  priority : Int
  seq : Nat
  act : Act
  deriving DecidableEq

structure State where
  time : Int
  wall : DateTime
  seqc : Nat
  queue : List Entry
  log : List Nat
  fired : List Entry
  deriving DecidableEq

/-- `sched.scheduler.enterabs`. -/
def enterabs (t p : Int) (a : Act) (s : State) : State :=
  { s with queue := s.queue ++ [⟨t, p, s.seqc, a⟩], seqc := s.seqc + 1 }

/-- `sched.scheduler.enter`: `time = self.timefunc() + delay`. -/
def enter (delay p : Int) (a : Act) (s : State) : State :=
  enterabs (s.time + delay) p a s

/-- Lexicographic `≤` on the `(time, priority, sequence)` key, the order
CPython's `Event.__lt__`/heap use. -/
def leKey (a b : Entry) : Bool :=
  decide (a.time < b.time) ||
  (decide (a.time = b.time) &&
    (decide (a.priority < b.priority) ||
     (decide (a.priority = b.priority) && decide (a.seq ≤ b.seq))))

/-- Extract the leftmost minimal entry (what `heappop` returns, given that
`sequence` keys of real schedulers are unique). -/
def popMin : List Entry → Option (Entry × List Entry)
  | [] => none
  | e :: es =>
    match popMin es with
    | none => some (e, es)
    | some (m, r) => if leKey e m then some (e, es) else some (m, e :: r)

/-- The body of `cron_runner` (src/sched2.py lines 122-128) minus its
`return action` statement: check the rule against the wall clock, enqueue
the action at delay 0 on a match, and unconditionally re-enqueue the runner
at the next whole-minute boundary of `timefunc`. -/
def cron_body (rule : Rule) (priority : Int) (a : Act) (s : State) : State :=
  let s1 := if check_rule rule s.wall then enter 0 priority a s else s
  let delay := 60 - s1.time % 60
  enter delay 0 (.cronA rule priority a) s1

/-- Invoke an action: returns the new state and the action's return value
truthiness (`prim` returns what the environment says; an `enter` call
returns an event object, which is truthy; `repeater` and the bare effect
actions return `None`, falsy; `cron_runner` returns the action, truthy). -/
def runAct (env : Nat → Nat → Bool) : Act → State → State × Bool
  | .prim f, s => ({ s with log := s.log ++ [f] }, env f (s.log.count f))
  | .enterA d p a, s => (enter d p a s, true)
  | .repeaterA d p a, s =>
    -- if the action returns a Trueish value, do not re-schedule
    let (s1, v) := runAct env a s
    if v then (s1, false) else (enter d p (.repeaterA d p a) s1, false)
  | .cronA rule p a, s => (cron_body rule p a s, true)
  | .seqA a b, s =>
    let (s1, _) := runAct env a s
    runAct env b s1

/-- `sched.scheduler.run(blocking)`, fuel-indexed (the source loop can run
forever, e.g. on a zero-delay recurrence under a frozen clock; every theorem
supplies enough fuel for its scenario).  Each fuel unit is one iteration of
the `while True` loop.  The trailing `delayfunc(0)` after an invocation
adds 0 to the clock and is omitted.  In the non-blocking case the source
returns `time - now`; the embedding returns the state. -/
def run (env : Nat → Nat → Bool) (blocking : Bool) : Nat → State → State
  | 0, s => s
  | fuel + 1, s =>
    match popMin s.queue with
    | none => s
    | some (m, rest) =>
      if m.time ≤ s.time then
        let s1 := { s with queue := rest, fired := s.fired ++ [m] }
        run env blocking fuel (runAct env m.act s1).1
      else if blocking then
        -- delayfunc(time - now)
        run env blocking fuel { s with time := s.time + (m.time - s.time) }
      else s

/-- `scheduler.repeat` (src/sched2.py lines 27-64).  The `argument`/`kwargs`
binding into `partial_action` is pre-applied inside the opaque action value.
Returns the original action (the decorator contract, line 64). -/
def «repeat» (delay priority : Int) (action : Act) (immediate : Bool)
    (s : State) : State × Act :=
  let initial_delay := if immediate then 0 else delay
  (enter initial_delay priority (.repeaterA delay priority action) s, action)

/-- `scheduler.every` (src/sched2.py lines 66-84): a partial application of
`repeat`. -/
def every (delay : Int) (priority : Int) (immediate : Bool) :
    Act → State → State × Act :=
  fun action s => «repeat» delay priority action immediate s

/-- Applying the configurator `cron_runner` returned by `scheduler.cron` to
a callable: the body runs once immediately at decoration time and the
original callable is returned (src/sched2.py lines 122-130). -/
def cron_runner (rule : Rule) (priority : Int) (a : Act) (s : State) :
    State × Act :=
  (cron_body rule priority a s, a)

/-- `scheduler.cron(rule, priority)` (src/sched2.py lines 86-130): parse the
rule text, then hand back the configurator. -/
def cron (g : Nat → Nat → Nat → Nat) (rule : String) (priority : Int) :
    Except String (Act → State → State × Act) :=
  (parse_rule g rule).map (fun parsed => cron_runner parsed priority)

/-! ### The listener registry, with Python object identity

The claims about `scheduler.__listeners` (src/sched2.py line 25), `on`
(lines 136-162) and the `listeners` accessor (lines 132-134) are about
aliasing, so this part of the embedding models the Python object heap
explicitly: list objects and dict objects live in stores indexed by
reference, and values inside a dict are references to list objects.
Listeners (callables) are numbered by `Nat`; a registration is a
`(listener, priority)` pair, exactly the tuple appended by `on`.

Crucially, line 25 executes once, at class-definition time:
`__listeners = defaultdict(list)` creates a single dict object stored on
the *class*.  `self.__listeners` on any instance finds that class
attribute, so `newSchedulerInstance` gives every instance the same
`regRef` — this is Python attribute-lookup semantics, not a modelling
choice. -/

/-- The Python object heap: `lists r` is the list object at reference `r`,
`dicts d` the dict object (an association list, insertion-ordered like
Python dicts) at reference `d`; `nextList`/`nextDict` are the next fresh
references. -/
structure Heap where
  lists : Nat → List (Nat × Int)
  dicts : Nat → List (String × Nat)
  nextList : Nat
  nextDict : Nat

/-- The reference of the one dict object created by line 25
(`__listeners = defaultdict(list)`) when the class body executed. -/
def classListenersRef : Nat := 0

/-- The heap right after the class body has run: the class-level
`defaultdict` exists and is empty. -/
def classHeap : Heap :=
  { lists := fun _ => [], dicts := fun _ => [], nextList := 0, nextDict := 1 }

/-- A scheduler instance, reduced to what the registry claims need: the
reference its `self.__listeners` lookup resolves to.  `scheduler.__init__`
does not assign `self.__listeners`, so attribute lookup falls through to the
class attribute. -/
structure SchedInstance where
  regRef : Nat

/-- Construct the `instanceId`-th scheduler instance: `__init__` never
assigns `self.__listeners`, so every instance — however many are
independently constructed — resolves `self.__listeners` to the class-level
dict. -/
def newSchedulerInstance (_instanceId : Nat) : SchedInstance :=
  ⟨classListenersRef⟩

def assocLookup (k : String) : List (String × Nat) → Option Nat
  | [] => none
  | (k', v) :: rest => if k' = k then some v else assocLookup k rest

/-- `defaultdict(list).__getitem__(key)`: return the existing list reference
or insert a fresh empty list under the key. -/
def defaultdictGet (h : Heap) (d : Nat) (key : String) : Heap × Nat :=
  match assocLookup key (h.dicts d) with
  | some r => (h, r)
  | none =>
    ({ h with
        dicts := Function.update h.dicts d (h.dicts d ++ [(key, h.nextList)]),
        nextList := h.nextList + 1 }, h.nextList)

/-- `list.append` on the list object at `r`. -/
def listAppend (h : Heap) (r : Nat) (x : Nat × Int) : Heap :=
  { h with lists := Function.update h.lists r (h.lists r ++ [x]) }

/-- The effect of `scheduler.on(event, priority)(action)`
(src/sched2.py lines 153-157): `self.__listeners[event].append((action,
priority))`, on the instance whose registry reference is `reg`. -/
def «on» (h : Heap) (reg : Nat) (event : String) (priority : Int)
    (action : Nat) : Heap :=
  let (h1, r) := defaultdictGet h reg event
  listAppend h1 r (action, priority)

/-- The `listeners` property (src/sched2.py lines 132-134):
`self.__listeners.copy()` — a new dict object whose entries are the same
(event, list-reference) pairs.  Returns the new heap and the reference of
the copy. -/
def listeners (h : Heap) (reg : Nat) : Heap × Nat :=
  ({ h with
      dicts := Function.update h.dicts h.nextDict (h.dicts reg),
      nextDict := h.nextDict + 1 }, h.nextDict)

/-- Read the registrations for `event` as seen through the dict at `d`
(what `emit` iterates over, src/sched2.py lines 182-190, minus the
re-sort): the contents of the referenced list object, `[]` when the event
has no entry. -/
def getListeners (h : Heap) (d : Nat) (event : String) : List (Nat × Int) :=
  match assocLookup event (h.dicts d) with
  | some r => h.lists r
  | none => []

/-- Overwrite (or insert) a key of the dict object at `d` — a caller
mutating a snapshot at the top level. -/
def dictSet (h : Heap) (d : Nat) (key : String) (r : Nat) : Heap :=
  { h with
      dicts := Function.update h.dicts d
        (if (assocLookup key (h.dicts d)).isSome then
          (h.dicts d).map (fun kv => if kv.1 = key then (key, r) else kv)
        else h.dicts d ++ [(key, r)]) }

/-- Delete a key of the dict object at `d`. -/
def dictRemove (h : Heap) (d : Nat) (key : String) : Heap :=
  { h with
      dicts := Function.update h.dicts d
        ((h.dicts d).filter (fun kv => kv.1 ≠ key)) }

/-! ### Auxiliary lemmas -/

/-- The entry ordering `leKey` as a relation. -/
def keyLE (a b : Entry) : Prop := leKey a b = true

def actSize : Act → Nat
  | .prim _ => 1
  | .enterA _ _ a => actSize a + 1
  | .repeaterA _ _ a => actSize a + 1
  | .cronA _ _ a => actSize a + 1
  | .seqA a b => actSize a + actSize b + 1

lemma cronA_ne_self (r : Rule) (p : Int) (a : Act) : Act.cronA r p a ≠ a := by
  intro h
  have hs := congrArg actSize h
  simp only [actSize] at hs
  omega

lemma leKey_refl (a : Entry) : keyLE a a := by
  simp [keyLE, leKey]

lemma leKey_total (a b : Entry) : keyLE a b ∨ keyLE b a := by
  simp only [keyLE, leKey, Bool.or_eq_true, Bool.and_eq_true, decide_eq_true_eq]
  omega

lemma leKey_trans {a b c : Entry} (h1 : keyLE a b) (h2 : keyLE b c) : keyLE a c := by
  simp only [keyLE, leKey, Bool.or_eq_true, Bool.and_eq_true, decide_eq_true_eq] at *
  omega

lemma popMin_eq_none {l : List Entry} : popMin l = none ↔ l = [] := by
  cases l with
  | nil => simp [popMin]
  | cons e es =>
    simp only [popMin]
    cases h : popMin es with
    | none => simp
    | some p => cases p with | mk m r => by_cases hle : leKey e m <;> simp [hle]

lemma popMin_perm {l : List Entry} {m : Entry} {rest : List Entry}
    (h : popMin l = some (m, rest)) : l.Perm (m :: rest) := by
  induction l generalizing m rest with
  | nil => simp [popMin] at h
  | cons e es ih =>
    simp only [popMin] at h
    cases hes : popMin es with
    | none =>
      rw [hes] at h
      obtain rfl : es = [] := popMin_eq_none.mp hes
      simp at h
      obtain ⟨rfl, rfl⟩ := h
      exact List.Perm.refl _
    | some p =>
      obtain ⟨m', r'⟩ := p
      rw [hes] at h
      by_cases hle : leKey e m'
      · simp [hle] at h
        obtain ⟨rfl, rfl⟩ := h
        exact List.Perm.refl _
      · simp [hle] at h
        obtain ⟨rfl, rfl⟩ := h
        exact ((ih hes).cons e).trans (List.Perm.swap m' e r')

lemma popMin_le {l : List Entry} {m : Entry} {rest : List Entry}
    (h : popMin l = some (m, rest)) : ∀ x ∈ l, keyLE m x := by
  induction l generalizing m rest with
  | nil => simp [popMin] at h
  | cons e es ih =>
    simp only [popMin] at h
    cases hes : popMin es with
    | none =>
      rw [hes] at h
      obtain rfl : es = [] := popMin_eq_none.mp hes
      simp at h
      obtain ⟨rfl, rfl⟩ := h
      intro x hx
      simp at hx
      subst hx
      exact leKey_refl _
    | some p =>
      obtain ⟨m', r'⟩ := p
      rw [hes] at h
      by_cases hle : leKey e m'
      · simp [hle] at h
        obtain ⟨rfl, rfl⟩ := h
        intro x hx
        rcases List.mem_cons.mp hx with rfl | hx
        · exact leKey_refl _
        · exact leKey_trans hle (ih hes x hx)
      · simp [hle] at h
        obtain ⟨rfl, rfl⟩ := h
        intro x hx
        rcases List.mem_cons.mp hx with h1 | hx
        · rw [h1]
          rcases leKey_total e m' with h' | h'
          · exact absurd h' hle
          · exact h'
        · exact ih hes x hx

lemma runAct_time (env : Nat → Nat → Bool) (a : Act) (s : State) :
    (runAct env a s).1.time = s.time := by
  induction a generalizing s with
  | prim f => rfl
  | enterA d p a _ => rfl
  | repeaterA d p a ih =>
    simp only [runAct]
    by_cases hv : (runAct env a s).2 <;> simp [hv, enter, enterabs, ih]
  | cronA r p a _ =>
    simp only [runAct, cron_body]
    by_cases hc : check_rule r s.wall <;> simp [hc, enter, enterabs]
  | seqA a b iha ihb =>
    simp only [runAct]
    rw [ihb, iha]

lemma runAct_fired (env : Nat → Nat → Bool) (a : Act) (s : State) :
    (runAct env a s).1.fired = s.fired := by
  induction a generalizing s with
  | prim f => rfl
  | enterA d p a _ => rfl
  | repeaterA d p a ih =>
    simp only [runAct]
    by_cases hv : (runAct env a s).2 <;> simp [hv, enter, enterabs, ih]
  | cronA r p a _ =>
    simp only [runAct, cron_body]
    by_cases hc : check_rule r s.wall <;> simp [hc, enter, enterabs]
  | seqA a b iha ihb =>
    simp only [runAct]
    rw [ihb, iha]

lemma run_empty_queue (env : Nat → Nat → Bool) (blocking : Bool) (fuel : Nat)
    (s : State) (hq : s.queue = []) : run env blocking fuel s = s := by
  cases fuel with
  | zero => rfl
  | succ n => simp [run, hq, popMin]

/-! ### The claims -/

/-- C1.  The claim says registering a listener via `on()` on one scheduler
instance never changes the registry observed through the other instance.
The code contradicts it: `__listeners = defaultdict(list)` (src/sched2.py
line 25) runs once at class-definition time, so every instance's
`self.__listeners` resolves to the same class-level dict object.  Starting
from the post-class-body heap, instance `j` observes no listeners for
event "e"; after `on("e")` registers callable 7 at priority 0 through
instance `i`, instance `j` observes `[(7, 0)]` — for any two instances
`i`, `j`. -/
theorem c1_listener_registry_shared_across_instances (i j : Nat) :
    getListeners classHeap (newSchedulerInstance j).regRef "e" = [] ∧
    getListeners («on» classHeap (newSchedulerInstance i).regRef "e" 0 7)
      (newSchedulerInstance j).regRef "e" = [(7, 0)] :=
  ⟨rfl, rfl⟩

/-- C2, counterexample.  The claim says `repeat` called with a delay that
is an absolute point in time raises `InvalidDelay` immediately, before any
queue mutation.  In the code `repeat` performs no validation at all — there
is no `InvalidDelay` anywhere in the repository — and always inserts its
initial entry.  Concretely, at clock 0 with an empty queue,
`repeat(1700000000, 0, action, immediate=False)` (an absolute Unix-epoch
style timestamp passed as the delay) returns normally with exactly one
entry queued, scheduled at `now + 1700000000`. -/
theorem c2_absolute_delay_not_rejected :
    ((«repeat» 1700000000 0 (.prim 0) false
        ⟨0, ⟨0, 0, 1, 1, 0⟩, 0, [], [], []⟩).1.queue.map
      (fun e => (e.time, e.priority))) = [(1700000000, 0)] := rfl

/-- C2, amended.  `repeat(delay, priority, action, immediate)` accepts any
numeric delay without validation, treating it as a relative duration: it
never fails, always appends exactly one entry — the self-rescheduling
repeater closure wrapping the action — scheduled at `now + (0 if immediate
else delay)` with the given priority, and returns the original action. -/
theorem c2_repeat_accepts_any_delay (delay priority : Int) (a : Act)
    (imm : Bool) (s : State) :
    («repeat» delay priority a imm s).2 = a ∧
    («repeat» delay priority a imm s).1.queue =
      s.queue ++ [⟨s.time + (if imm then 0 else delay), priority, s.seqc,
        .repeaterA delay priority a⟩] ∧
    («repeat» delay priority a imm s).1.time = s.time :=
  ⟨rfl, rfl, rfl⟩

/-- C6.  One firing of the cron runner installed by `cron(rule, priority)`:
if the parsed rule matches the current wall-clock time, one invocation of
the callable is enqueued at delay 0 with the caller-supplied priority;
unconditionally the runner re-enqueues itself `60 - (now mod 60)` seconds
later at priority 0 (independent of the caller-supplied priority); and the
configurator returns the original callable unchanged.  The last conjunct
identifies the queued runner's firing with the same body. -/
theorem c6_cron_runner_semantics (env : Nat → Nat → Bool) (r : Rule)
    (p : Int) (a : Act) (s : State) :
    (cron_runner r p a s).2 = a ∧
    (cron_runner r p a s).1.queue =
      s.queue ++
        (if check_rule r s.wall then [⟨s.time + 0, p, s.seqc, a⟩] else []) ++
        [⟨s.time + (60 - s.time % 60), 0,
          (if check_rule r s.wall then s.seqc + 1 else s.seqc),
          .cronA r p a⟩] ∧
    (runAct env (.cronA r p a) s).1 = (cron_runner r p a s).1 := by
  refine ⟨rfl, ?_, rfl⟩
  by_cases hc : check_rule r s.wall <;>
    simp [cron_runner, cron_body, enter, enterabs, hc]

/-- C7.  `parse_rule` parses the day-of-week field with bound 7 (cron
convention, 0 and 7 both Sunday) and remaps by subtracting 1 and replacing
a resulting -1 with 6: `"0 0 * * 0"` yields weekday set `{6}` and
`"0 0 * * 1"` yields weekday set `{0}`, for every state of the random
source (these fields use no randomness). -/
theorem c7_weekday_remap (g : Nat → Nat → Nat → Nat) :
    ((parse_rule g "0 0 * * 0").toOption.map Rule.day_of_week =
      some ({6} : Finset Int)) ∧
    ((parse_rule g "0 0 * * 1").toOption.map Rule.day_of_week =
      some ({0} : Finset Int)) := by
  have h0 : parse_rule g "0 0 * * 0" =
      parse_rule (fun _ _ _ => 0) "0 0 * * 0" := rfl
  have h1 : parse_rule g "0 0 * * 1" =
      parse_rule (fun _ _ _ => 0) "0 0 * * 1" := rfl
  rw [h0, h1]
  constructor <;> decide

/-- C9, counterexample.  The claim says mutating the snapshot returned by
`listeners` — including the per-event lists it contains — does not affect
the live registry.  But `self.__listeners.copy()` is a shallow copy: the
snapshot's per-event lists are the very list objects of the live registry.
Concretely: register listener 7 for "e", take the snapshot, and append
listener 8 to the snapshot's list for "e"; the live registry now reports
`[(7, 0), (8, 1)]` instead of the original `[(7, 0)]`. -/
theorem c9_snapshot_inner_list_shared :
    getListeners («on» classHeap classListenersRef "e" 0 7)
      classListenersRef "e" = [(7, 0)] ∧
    getListeners
      (listAppend (listeners («on» classHeap classListenersRef "e" 0 7)
          classListenersRef).1
        ((assocLookup "e"
          (((listeners («on» classHeap classListenersRef "e" 0 7)
              classListenersRef).1).dicts
            (listeners («on» classHeap classListenersRef "e" 0 7)
              classListenersRef).2)).getD 0)
        (8, 1))
      classListenersRef "e" = [(7, 0), (8, 1)] := by
  constructor <;> rfl

/-- C9, amended.  `listeners` returns a shallow copy: a fresh top-level
dict object (distinct from the live registry's dict), holding the same
per-event list references.  Mutating the snapshot at the top level —
overwriting or deleting an event key — does not affect what the live
registry reports, but the per-event lists are shared with the live
registry (so mutating them does affect it, per the counterexample). -/
theorem c9_shallow_copy_top_level_only (h : Heap) (reg : Nat)
    (hlt : reg < h.nextDict) (key : String) (r : Nat) (event : String) :
    (listeners h reg).2 ≠ reg ∧
    ((listeners h reg).1).dicts (listeners h reg).2 = h.dicts reg ∧
    getListeners (dictSet (listeners h reg).1 (listeners h reg).2 key r)
      reg event = getListeners h reg event ∧
    getListeners (dictRemove (listeners h reg).1 (listeners h reg).2 key)
      reg event = getListeners h reg event := by
  have hne : h.nextDict ≠ reg := by omega
  have hne' : reg ≠ h.nextDict := by omega
  refine ⟨hne, ?_, ?_, ?_⟩
  · simp [listeners]
  · simp [getListeners, dictSet, listeners, Function.update_noteq hne']
  · simp [getListeners, dictRemove, listeners, Function.update_noteq hne']

/-- C3, counterexample.  The claim says an entry inserted during a
non-blocking pass with an already-due `scheduled_time` is not invoked
within that same pass.  But the inherited `run` loop re-reads the queue and
the clock on every iteration: at clock 0, a queued due action that itself
calls `enter(0, 0, prim 1)` causes callable 1 to be invoked within the very
same `run(blocking=False)` pass (the invocation log of the pass is `[1]`). -/
theorem c3_due_insertion_drained_same_pass :
    (run (fun _ _ => false) false 3
      (enter 0 0 (.enterA 0 0 (.prim 1))
        ⟨0, ⟨0, 0, 1, 1, 0⟩, 0, [], [], []⟩)).log = [1] := rfl

/-- C3, amended.  `run(blocking=False)` never blocks (the clock reading is
unchanged over the whole pass — `delayfunc` is never invoked with a positive
amount) and never invokes an entry whose `scheduled_time` is strictly
greater than the clock reading, which equals "now" at the start of the
call; entries inserted during the pass with an already-due time, however,
ARE drained in the same pass (see the counterexample). -/
theorem c3_nonblocking_only_past_due (env : Nat → Nat → Bool) (fuel : Nat)
    (s : State) :
    (run env false fuel s).time = s.time ∧
    ∃ t, (run env false fuel s).fired = s.fired ++ t ∧
      ∀ e ∈ t, e.time ≤ s.time := by
  induction fuel generalizing s with
  | zero => exact ⟨rfl, [], by simp [run], by simp⟩
  | succ n ih =>
    cases hpop : popMin s.queue with
    | none =>
      have hrun : run env false (n + 1) s = s := by simp [run, hpop]
      rw [hrun]
      exact ⟨rfl, [], by simp, by simp⟩
    | some pr =>
      obtain ⟨m, rest⟩ := pr
      by_cases hle : m.time ≤ s.time
      · have hrun : run env false (n + 1) s =
            run env false n
              (runAct env m.act
                { s with queue := rest, fired := s.fired ++ [m] }).1 := by
          simp [run, hpop, hle]
        have htime :
            (runAct env m.act
              { s with queue := rest, fired := s.fired ++ [m] }).1.time
              = s.time := runAct_time env m.act _
        have hfired :
            (runAct env m.act
              { s with queue := rest, fired := s.fired ++ [m] }).1.fired
              = s.fired ++ [m] := runAct_fired env m.act _
        obtain ⟨iht, t1, ihf, ihb⟩ :=
          ih (runAct env m.act { s with queue := rest, fired := s.fired ++ [m] }).1
        refine ⟨by rw [hrun, iht, htime], m :: t1, ?_, ?_⟩
        · rw [hrun, ihf, hfired]
          simp
        · intro e he
          rcases List.mem_cons.mp he with h1 | h1
          · rw [h1]; exact hle
          · have hb := ihb e h1
            rw [htime] at hb
            exact hb
      · have hrun : run env false (n + 1) s = s := by simp [run, hpop, hle]
        rw [hrun]
        exact ⟨rfl, [], by simp, by simp⟩

/-- Whether an action is an opaque user callable (one that performs no
scheduling of its own when invoked). -/
def isPrim : Act → Bool
  | .prim _ => true
  | _ => false

lemma isPrim_iff {a : Act} : isPrim a = true ↔ ∃ f, a = .prim f := by
  cases a <;> simp [isPrim]

/-- C4.  For every collection of queued entries (whose actions do not
themselves schedule) and enough fuel, the blocking run loop invokes all of
them, in non-decreasing `(scheduled_time, priority, sequence)` order — so
non-decreasing time, then non-decreasing priority among equal times, then
insertion (FIFO) order among equal time and priority. -/
theorem c4_run_invokes_in_key_order (env : Nat → Nat → Bool) :
    ∀ (n : Nat) (s : State) (fuel : Nat),
      s.queue.length = n →
      (∀ e ∈ s.queue, isPrim e.act = true) →
      2 * n ≤ fuel →
      ∃ t, (run env true fuel s).fired = s.fired ++ t ∧
        t.Perm s.queue ∧ List.Sorted keyLE t := by
  intro n
  induction n with
  | zero =>
    intro s fuel hlen _ _
    have hq : s.queue = [] := List.length_eq_zero.mp hlen
    rw [run_empty_queue env true fuel s hq]
    exact ⟨[], by simp, by simp [hq], List.sorted_nil⟩
  | succ n ih =>
    intro s fuel hlen hprim hfuel
    cases hpop : popMin s.queue with
    | none =>
      rw [popMin_eq_none.mp hpop] at hlen
      simp at hlen
    | some pr =>
      obtain ⟨m, rest⟩ := pr
      have hperm := popMin_perm hpop
      have hrest_len : rest.length = n := by
        have hl := hperm.length_eq
        rw [hlen] at hl
        simpa using hl.symm
      have hm_mem : m ∈ s.queue := hperm.mem_iff.mpr (List.mem_cons_self m rest)
      obtain ⟨fm, hfm⟩ := isPrim_iff.mp (hprim m hm_mem)
      have common : ∀ (st : State) (fuel' : Nat),
          st.queue = s.queue → st.fired = s.fired → m.time ≤ st.time →
          2 * n ≤ fuel' →
          ∃ t, (run env true (fuel' + 1) st).fired = s.fired ++ t ∧
            t.Perm s.queue ∧ List.Sorted keyLE t := by
        intro st fuel' hq hf hle hfu
        have hpop' : popMin st.queue = some (m, rest) := by rw [hq]; exact hpop
        have hrun : run env true (fuel' + 1) st =
            run env true fuel'
              (runAct env m.act
                { st with queue := rest, fired := st.fired ++ [m] }).1 := by
          simp [run, hpop', hle]
        rw [hfm] at hrun
        have hq2 : (runAct env (.prim fm)
            { st with queue := rest, fired := st.fired ++ [m] }).1.queue
            = rest := rfl
        have hf2 : (runAct env (.prim fm)
            { st with queue := rest, fired := st.fired ++ [m] }).1.fired
            = st.fired ++ [m] := rfl
        obtain ⟨t1, h1, h2, h3⟩ :=
          ih (runAct env (.prim fm)
              { st with queue := rest, fired := st.fired ++ [m] }).1 fuel'
            (by rw [hq2]; exact hrest_len)
            (by
              rw [hq2]
              intro e he
              exact hprim e (hperm.mem_iff.mpr (List.mem_cons_of_mem m he)))
            hfu
        rw [hq2] at h2
        refine ⟨m :: t1, ?_, ?_, ?_⟩
        · rw [hrun, h1, hf2, hf]
          simp
        · exact ((h2.cons m).trans hperm.symm)
        · refine List.sorted_cons.mpr ⟨?_, h3⟩
          intro b hb
          exact popMin_le hpop b
            (hperm.mem_iff.mpr (List.mem_cons_of_mem m (h2.mem_iff.mp hb)))
      obtain ⟨f, rfl⟩ : ∃ f, fuel = f + 1 := ⟨fuel - 1, by omega⟩
      by_cases hle : m.time ≤ s.time
      · exact common s f rfl rfl hle (by omega)
      · have hrun : run env true (f + 1) s =
            run env true f { s with time := s.time + (m.time - s.time) } := by
          simp [run, hpop, hle]
        obtain ⟨f', rfl⟩ : ∃ f', f = f' + 1 := ⟨f - 1, by omega⟩
        rw [hrun]
        exact common { s with time := s.time + (m.time - s.time) } f' rfl rfl
          (by change m.time ≤ s.time + (m.time - s.time); omega) (by omega)

/-- A concrete scheduler state whose queue holds four entries out of key
order, two of them tied on time and priority. -/
def c4wState : State :=
  ⟨0, ⟨0, 0, 1, 1, 0⟩, 4,
    [⟨5, 0, 0, .prim 3⟩, ⟨1, 1, 1, .prim 0⟩,
     ⟨1, 3, 2, .prim 1⟩, ⟨5, 0, 3, .prim 2⟩], [], []⟩

/-- C4, witness: the four out-of-order entries of `c4wState` drain in
sorted key order. -/
theorem c4_run_invokes_in_key_order_witness :
    c4wState.queue.length = 4 ∧
    (∀ e ∈ c4wState.queue, isPrim e.act = true) ∧
    (2 * 4 ≤ 8) ∧
    ∃ t, (run (fun _ _ => false) true 8 c4wState).fired =
        c4wState.fired ++ t ∧
      t.Perm c4wState.queue ∧ List.Sorted keyLE t :=
  ⟨rfl, by decide, by decide,
    c4_run_invokes_in_key_order (fun _ _ => false) 4 c4wState 8 rfl (by decide)
      (by decide)⟩

/-- Progress of a queued repeater entry: if the queue holds exactly the
repeater wrapping callable `fm`, the callable has been invoked `c = N - k`
times so far, and the environment makes it return falsy before its Nth
invocation and truthy at the Nth, then a blocking run with fuel `2k`
finishes with an empty queue and exactly `N` invocations logged. -/
lemma run_repeater_progress (env : Nat → Nat → Bool) (N fm : Nat)
    (d p : Int)
    (hfalse : ∀ j, j + 1 < N → env fm j = false)
    (htrue : env fm (N - 1) = true) :
    ∀ (k : Nat), 1 ≤ k → ∀ (c : Nat), c + k = N →
      ∀ (s : State) (T : Int) (q : Nat) (fuel : Nat),
        s.queue = [⟨T, p, q, .repeaterA d p (.prim fm)⟩] →
        s.log = List.replicate c fm →
        2 * k ≤ fuel →
        (run env true fuel s).queue = [] ∧
        (run env true fuel s).log = List.replicate N fm := by
  intro k
  induction k with
  | zero => intro h1; omega
  | succ k ih =>
    intro _ c hc s T q fuel hq hlog hfuel
    have hpop : popMin s.queue =
        some (⟨T, p, q, .repeaterA d p (.prim fm)⟩, []) := by
      rw [hq]; rfl
    have common : ∀ (st : State) (fuel' : Nat),
        st.queue = s.queue → st.log = s.log → T ≤ st.time →
        2 * k ≤ fuel' →
        (run env true (fuel' + 1) st).queue = [] ∧
        (run env true (fuel' + 1) st).log = List.replicate N fm := by
      intro st fuel' hq' hlog' hle hfu
      have hpop' : popMin st.queue =
          some (⟨T, p, q, .repeaterA d p (.prim fm)⟩, []) := by
        rw [hq']; exact hpop
      have hstlog : st.log = List.replicate c fm := by rw [hlog', hlog]
      have hcnt : st.log.count fm = c := by
        rw [hstlog, List.count_replicate_self]
      have hrun : run env true (fuel' + 1) st =
          run env true fuel'
            (runAct env (.repeaterA d p (.prim fm)) { st with queue := [], fired := st.fired ++ [⟨T, p, q, .repeaterA d p (.prim fm)⟩] }).1 := by
        simp [run, hpop', hle]
      rcases Nat.eq_zero_or_pos k with hk0 | hkpos
      · -- this is the Nth firing: the callable returns truthy, no re-insertion
        have hv : env fm c = true := by
          have hcN : c = N - 1 := by omega
          rw [hcN]; exact htrue
        have hstep : (runAct env (.repeaterA d p (.prim fm)) { st with queue := [], fired := st.fired ++ [⟨T, p, q, .repeaterA d p (.prim fm)⟩] }).1 =
            { st with queue := [], fired := st.fired ++ [⟨T, p, q, .repeaterA d p (.prim fm)⟩], log := st.log ++ [fm] } := by
          simp [runAct, hcnt, hv]
        rw [hrun, hstep, run_empty_queue env true fuel' _ rfl]
        refine ⟨rfl, ?_⟩
        show st.log ++ [fm] = List.replicate N fm
        rw [hstlog, ← List.replicate_succ']
        congr 1
        omega
      · -- an earlier firing: the callable returns falsy, the repeater
        -- re-inserts itself at now + delay
        have hv : env fm c = false := hfalse c (by omega)
        have hstep : (runAct env (.repeaterA d p (.prim fm)) { st with queue := [], fired := st.fired ++ [⟨T, p, q, .repeaterA d p (.prim fm)⟩] }).1 =
            { st with queue := [⟨st.time + d, p, st.seqc, .repeaterA d p (.prim fm)⟩], fired := st.fired ++ [⟨T, p, q, .repeaterA d p (.prim fm)⟩], log := st.log ++ [fm], seqc := st.seqc + 1 } := by
          simp [runAct, hcnt, hv, enter, enterabs]
        rw [hrun, hstep]
        obtain ⟨fuel2, rfl⟩ : ∃ f2, fuel' = f2 + 1 :=
          ⟨fuel' - 1, by omega⟩
        exact ih hkpos (c + 1) (by omega)
          { st with queue := [⟨st.time + d, p, st.seqc, .repeaterA d p (.prim fm)⟩], fired := st.fired ++ [⟨T, p, q, .repeaterA d p (.prim fm)⟩], log := st.log ++ [fm], seqc := st.seqc + 1 }
          (st.time + d) st.seqc (fuel2 + 1) rfl
          (by
            show st.log ++ [fm] = List.replicate (c + 1) fm
            rw [hstlog, ← List.replicate_succ'])
          (by omega)
    obtain ⟨f, rfl⟩ : ∃ f, fuel = f + 1 := ⟨fuel - 1, by omega⟩
    by_cases hle : T ≤ s.time
    · exact common s f rfl rfl hle (by omega)
    · have hrun : run env true (f + 1) s =
          run env true f { s with time := s.time + (T - s.time) } := by
        simp [run, hpop, hle]
      obtain ⟨f1, rfl⟩ : ∃ f1, f = f1 + 1 := ⟨f - 1, by omega⟩
      rw [hrun]
      exact common { s with time := s.time + (T - s.time) } f1 rfl rfl
        (by change T ≤ s.time + (T - s.time); omega) (by omega)

/-- C5.  For every callable that returns a truthy value on its Nth
invocation and falsy values earlier, `repeat(delay, priority, action)`
(either immediate flavour) causes exactly N invocations, after which the
queue is empty: each falsy return re-inserts the repeater at `now + delay`
with the same priority, and the first truthy return stops the recurrence. -/
theorem c5_repeat_termination (env : Nat → Nat → Bool) (N fm : Nat)
    (hN : 1 ≤ N) (d p : Int) (imm : Bool) (s : State)
    (hq : s.queue = []) (hlog : s.log = [])
    (hfalse : ∀ j, j + 1 < N → env fm j = false)
    (htrue : env fm (N - 1) = true)
    (fuel : Nat) (hfuel : 2 * N ≤ fuel) :
    (run env true fuel ((«repeat» d p (.prim fm) imm s).1)).queue = [] ∧
    (run env true fuel ((«repeat» d p (.prim fm) imm s).1)).log =
      List.replicate N fm := by
  apply run_repeater_progress env N fm d p hfalse htrue N hN 0 (by omega)
    _ (s.time + (if imm then 0 else d)) s.seqc fuel ?_ ?_ hfuel
  · show (enter (if imm then 0 else d) p
      (.repeaterA d p (.prim fm)) s).queue = _
    simp [enter, enterabs, hq]
  · show (enter (if imm then 0 else d) p
      (.repeaterA d p (.prim fm)) s).log = List.replicate 0 fm
    simp [enter, enterabs, hlog]

/-- C5, witness: a callable returning falsy once then truthy on its 2nd
invocation, repeated with delay 5, runs exactly twice and leaves the queue
empty. -/
theorem c5_repeat_termination_witness :
    (1 : Nat) ≤ 2 ∧
    ((⟨0, ⟨0, 0, 1, 1, 0⟩, 0, [], [], []⟩ : State).queue = []) ∧
    ((⟨0, ⟨0, 0, 1, 1, 0⟩, 0, [], [], []⟩ : State).log = []) ∧
    (∀ j, j + 1 < 2 → (fun _ k => decide (k + 1 = 2) : Nat → Nat → Bool) 7 j
      = false) ∧
    ((fun _ k => decide (k + 1 = 2) : Nat → Nat → Bool) 7 (2 - 1) = true) ∧
    (2 * 2 ≤ 6) ∧
    ((run (fun _ k => decide (k + 1 = 2)) true 6
      ((«repeat» 5 1 (.prim 7) true
        ⟨0, ⟨0, 0, 1, 1, 0⟩, 0, [], [], []⟩).1)).queue = [] ∧
    (run (fun _ k => decide (k + 1 = 2)) true 6
      ((«repeat» 5 1 (.prim 7) true
        ⟨0, ⟨0, 0, 1, 1, 0⟩, 0, [], [], []⟩).1)).log =
      List.replicate 2 7) :=
  ⟨by decide, rfl, rfl,
    by intro j hj; have hj0 : j = 0 := by omega
       rw [hj0]; rfl,
    rfl, by decide,
    c5_repeat_termination (fun _ k => decide (k + 1 = 2)) 2 7 (by decide)
      5 1 true ⟨0, ⟨0, 0, 1, 1, 0⟩, 0, [], [], []⟩ rfl rfl
      (by intro j hj; have hj0 : j = 0 := by omega
          rw [hj0]; rfl)
      rfl 6 (by decide)⟩

/-- C8.  For every possible state of the random source — any oracle whose
draw from `[a, b]` lands in `[a, b]` — `parse_field("5~10", max=10)`
succeeds with a non-empty subset of `{5,...,10}`, and
`parse_field("~/30", max=59)` succeeds with a set of exactly 2 elements
(the `~`-with-step path randomizes the window start inside
`[start, start + step - 1]` here, since `step = 30 ≤ stop - start = 59`,
then emits every 30th value through 59). -/
theorem c8_random_field_containment (g : Nat → Nat → Nat → Nat)
    (hg : ∀ k a b, a ≤ b → a ≤ g k a b ∧ g k a b ≤ b) :
    (∃ sset, parse_field g "5~10" 10 = .ok sset ∧
      sset ⊆ Finset.Icc 5 10 ∧ sset.Nonempty) ∧
    (∃ sset, parse_field g "~/30" 59 = .ok sset ∧ sset.card = 2) := by
  constructor
  · have h1 : parse_field g "5~10" 10 = .ok (insert (g 0 5 10) ∅) := rfl
    refine ⟨_, h1, ?_, ?_⟩
    · intro x hx
      simp only [Finset.mem_insert, Finset.not_mem_empty, or_false] at hx
      have hb := hg 0 5 10 (by omega)
      rw [hx]
      simp only [Finset.mem_Icc]
      omega
    · exact ⟨g 0 5 10, by simp⟩
  · have h2 : parse_field g "~/30" 59 =
        .ok (∅ ∪ (pyRange (g 0 0 29) (59 + 1) 30).toFinset) := rfl
    refine ⟨_, h2, ?_⟩
    have hv : g 0 0 29 ≤ 29 := (hg 0 0 29 (by omega)).2
    rw [Finset.empty_union]
    unfold pyRange
    have hlen : (59 + 1 - g 0 0 29 + 30 - 1) / 30 = 2 := by omega
    rw [hlen]
    have hr2 : List.range' (g 0 0 29) 2 30 =
        [g 0 0 29, g 0 0 29 + 30] := rfl
    rw [hr2]
    simp only [List.toFinset_cons, List.toFinset_nil, insert_emptyc_eq]
    rw [Finset.card_insert_of_not_mem
      (by simp only [Finset.mem_singleton]; omega)]
    rfl

/-- C8, witness: the oracle that always returns the lower end of the
requested range. -/
theorem c8_random_field_containment_witness :
    (∀ k a b, a ≤ b → a ≤ (fun _ a _ => a : Nat → Nat → Nat → Nat) k a b ∧
      (fun _ a _ => a : Nat → Nat → Nat → Nat) k a b ≤ b) ∧
    ((∃ sset, parse_field (fun _ a _ => a) "5~10" 10 = .ok sset ∧
      sset ⊆ Finset.Icc 5 10 ∧ sset.Nonempty) ∧
    (∃ sset, parse_field (fun _ a _ => a) "~/30" 59 = .ok sset ∧
      sset.card = 2)) :=
  ⟨fun _ a _ h => ⟨le_refl a, h⟩,
    c8_random_field_containment (fun _ a _ => a)
      (fun _ a _ h => ⟨le_refl a, h⟩)⟩

/-- C10.  Applying the configurator returned by `cron(rule_text, priority)`
to a callable performs the first rule evaluation immediately, at decoration
time, against the wall clock (`datetime.now()`, the `wall` field — not the
scheduler's injected clock, which only determines the entries' scheduled
times): starting from an empty queue, the callable is enqueued at delay 0
with the given priority exactly when the rule matches the wall-clock
instant, the runner's next firing is always enqueued `60 - (now mod 60)`
seconds ahead at priority 0, the queue is non-empty immediately after
decoration, and the original callable is returned. -/
theorem c10_cron_decoration_immediate (g : Nat → Nat → Nat → Nat)
    (rule : String) (r : Rule) (p : Int) (a : Act) (s : State)
    (hparse : parse_rule g rule = .ok r) (hq : s.queue = []) :
    ∃ cfg, cron g rule p = .ok cfg ∧
      (cfg a s).2 = a ∧
      (cfg a s).1.queue ≠ [] ∧
      ((∃ e ∈ (cfg a s).1.queue,
          e.act = a ∧ e.time = s.time + 0 ∧ e.priority = p) ↔
        check_rule r s.wall = true) ∧
      (∃ e ∈ (cfg a s).1.queue, e.act = .cronA r p a ∧
        e.time = s.time + (60 - s.time % 60) ∧ e.priority = 0) := by
  refine ⟨cron_runner r p, by simp [cron, hparse, Except.map], rfl, ?_, ?_, ?_⟩
  · by_cases hc : check_rule r s.wall <;>
      simp [cron_runner, cron_body, enter, enterabs, hq, hc]
  · by_cases hc : check_rule r s.wall
    · have hqueue : (cron_runner r p a s).1.queue =
          [⟨s.time + 0, p, s.seqc, a⟩,
           ⟨s.time + (60 - s.time % 60), 0, s.seqc + 1, .cronA r p a⟩] := by
        simp [cron_runner, cron_body, enter, enterabs, hq, hc]
      refine iff_of_true ?_ hc
      exact ⟨⟨s.time + 0, p, s.seqc, a⟩, by rw [hqueue]; simp, rfl, rfl, rfl⟩
    · have hqueue : (cron_runner r p a s).1.queue =
          [⟨s.time + (60 - s.time % 60), 0, s.seqc, .cronA r p a⟩] := by
        simp [cron_runner, cron_body, enter, enterabs, hq, hc]
      refine iff_of_false ?_ (by simpa using hc)
      rintro ⟨e, he, hea, -, -⟩
      rw [hqueue] at he
      simp only [List.mem_singleton] at he
      rw [he] at hea
      exact cronA_ne_self r p a hea
  · by_cases hc : check_rule r s.wall
    · refine ⟨⟨s.time + (60 - s.time % 60), 0, s.seqc + 1, .cronA r p a⟩,
        ?_, rfl, rfl, rfl⟩
      simp [cron_runner, cron_body, enter, enterabs, hq, hc]
    · refine ⟨⟨s.time + (60 - s.time % 60), 0, s.seqc, .cronA r p a⟩,
        ?_, rfl, rfl, rfl⟩
      simp [cron_runner, cron_body, enter, enterabs, hq, hc]

/-- The all-zeros random oracle, for concrete instantiations. -/
def gZero : Nat → Nat → Nat → Nat := fun _ _ _ => 0

/-- The parse of the all-wildcards rule under `gZero`. -/
def rStar : Rule :=
  match parse_rule gZero "* * * * *" with
  | .ok r => r
  | .error _ => ⟨∅, ∅, ∅, ∅, ∅⟩

/-- C10, witness: decorating callable 3 with `cron("* * * * *", 5)` on a
fresh scheduler. -/
theorem c10_cron_decoration_immediate_witness :
    parse_rule gZero "* * * * *" = .ok rStar ∧
    ((⟨0, ⟨0, 0, 1, 1, 0⟩, 0, [], [], []⟩ : State).queue = []) ∧
    ∃ cfg, cron gZero "* * * * *" 5 = .ok cfg ∧
      (cfg (.prim 3) ⟨0, ⟨0, 0, 1, 1, 0⟩, 0, [], [], []⟩).2 = .prim 3 ∧
      (cfg (.prim 3) ⟨0, ⟨0, 0, 1, 1, 0⟩, 0, [], [], []⟩).1.queue ≠ [] ∧
      ((∃ e ∈ (cfg (.prim 3)
            ⟨0, ⟨0, 0, 1, 1, 0⟩, 0, [], [], []⟩).1.queue,
          e.act = .prim 3 ∧
          e.time = (⟨0, ⟨0, 0, 1, 1, 0⟩, 0, [], [], []⟩ : State).time + 0 ∧
          e.priority = 5) ↔
        check_rule rStar
          (⟨0, ⟨0, 0, 1, 1, 0⟩, 0, [], [], []⟩ : State).wall = true) ∧
      (∃ e ∈ (cfg (.prim 3)
          ⟨0, ⟨0, 0, 1, 1, 0⟩, 0, [], [], []⟩).1.queue,
        e.act = .cronA rStar 5 (.prim 3) ∧
        e.time = (⟨0, ⟨0, 0, 1, 1, 0⟩, 0, [], [], []⟩ : State).time +
          (60 - (⟨0, ⟨0, 0, 1, 1, 0⟩, 0, [], [], []⟩ : State).time % 60) ∧
        e.priority = 0) :=
  ⟨rfl, rfl,
    c10_cron_decoration_immediate gZero "* * * * *" rStar 5 (.prim 3)
      ⟨0, ⟨0, 0, 1, 1, 0⟩, 0, [], [], []⟩ rfl rfl⟩

/-- C9, witness for the amended theorem. -/
theorem c9_shallow_copy_top_level_only_witness :
    (0 : Nat) < classHeap.nextDict ∧
    ((listeners classHeap 0).2 ≠ 0 ∧
      ((listeners classHeap 0).1).dicts (listeners classHeap 0).2 =
        classHeap.dicts 0 ∧
      getListeners (dictSet (listeners classHeap 0).1
          (listeners classHeap 0).2 "x" 5) 0 "e" =
        getListeners classHeap 0 "e" ∧
      getListeners (dictRemove (listeners classHeap 0).1
          (listeners classHeap 0).2 "x") 0 "e" =
        getListeners classHeap 0 "e") :=
  ⟨by decide, c9_shallow_copy_top_level_only classHeap 0 (by decide) "x" 5 "e"⟩

end Sched2

